import Mathlib

/-!
# Verification of the Dragonfly search executor and sorted-set core

Shallow embedding of `src/core/search/search.cc`, `src/core/sorted_map.cc`
and `src/server/search/search_family.cc`.  Documents are identified by
natural-number `DocId`s; posting lists are sorted duplicate-free lists.
-/

namespace Dfly

abbrev DocId := Nat

/-- A DocSet in the sense of the spec: strictly ascending list of doc ids
(ascending and duplicate-free). -/
def StrictSorted (l : List DocId) : Prop := l.Pairwise (· < ·)

instance (l : List DocId) : Decidable (StrictSorted l) := by
  unfold StrictSorted; infer_instance

/-! ## Sorted-sequence set algebra

`setInter` and `setUnion` are the shallow embeddings of `std::set_intersection`
and `std::set_union` as used by `BasicSearch::Merge` (search.cc:107-126): the
classic two-pointer merge over two ascending ranges. -/

def setInter : List DocId → List DocId → List DocId
  | [], _ => []
  | _ :: _, [] => []
  | a :: as, b :: bs =>
    if a < b then setInter as (b :: bs)
    else if b < a then setInter (a :: as) bs
    else a :: setInter as bs
termination_by l r => l.length + r.length

def setUnion : List DocId → List DocId → List DocId
  | [], bs => bs
  | a :: as, [] => a :: as
  | a :: as, b :: bs =>
    if a < b then a :: setUnion as (b :: bs)
    else if b < a then b :: setUnion (a :: as) bs
    else a :: setUnion as bs
termination_by l r => l.length + r.length

theorem mem_setInter : ∀ {a b : List DocId}, StrictSorted a → StrictSorted b →
    ∀ x, x ∈ setInter a b ↔ x ∈ a ∧ x ∈ b := by
  intro a b
  induction a, b using setInter.induct with
  | case1 bs => simp [setInter]
  | case2 a as => simp [setInter]
  | case3 a as b bs hab ih =>
    intro ha hb x
    rw [setInter, if_pos hab]
    rw [ih ha.of_cons hb x]
    constructor
    · rintro ⟨hxa, hxb⟩; exact ⟨List.mem_cons_of_mem _ hxa, hxb⟩
    · rintro ⟨hxa, hxb⟩
      rcases List.mem_cons.1 hxa with rfl | hxa'
      · -- x = a is in b :: bs, but a < b and b :: bs is ascending: impossible
        rcases List.mem_cons.1 hxb with rfl | hxb'
        · exact (lt_irrefl _ hab).elim
        · exact absurd ((List.pairwise_cons.1 hb).1 _ hxb') (lt_asymm hab)
      · exact ⟨hxa', hxb⟩
  | case4 a as b bs hab hba ih =>
    intro ha hb x
    rw [setInter, if_neg hab, if_pos hba]
    rw [ih ha hb.of_cons x]
    constructor
    · rintro ⟨hxa, hxb⟩; exact ⟨hxa, List.mem_cons_of_mem _ hxb⟩
    · rintro ⟨hxa, hxb⟩
      rcases List.mem_cons.1 hxb with rfl | hxb'
      · rcases List.mem_cons.1 hxa with rfl | hxa'
        · exact (lt_irrefl _ hba).elim
        · exact absurd hba (lt_asymm ((List.pairwise_cons.1 ha).1 _ hxa'))
      · exact ⟨hxa, hxb'⟩
  | case5 a as b bs hab hba ih =>
    intro ha hb x
    have heq : a = b := le_antisymm (le_of_not_lt hba) (le_of_not_lt hab)
    subst heq
    rw [setInter, if_neg hab, if_neg hba]
    simp only [List.mem_cons, ih ha.of_cons hb.of_cons x]
    constructor
    · rintro (rfl | ⟨h1, h2⟩)
      · exact ⟨Or.inl rfl, Or.inl rfl⟩
      · exact ⟨Or.inr h1, Or.inr h2⟩
    · rintro ⟨rfl | h1, hb2⟩
      · exact Or.inl rfl
      · rcases hb2 with rfl | h2
        · exact (lt_irrefl _ ((List.pairwise_cons.1 ha).1 _ h1)).elim
        · exact Or.inr ⟨h1, h2⟩

theorem sorted_setInter : ∀ {a b : List DocId}, StrictSorted a → StrictSorted b →
    StrictSorted (setInter a b) := by
  intro a b
  induction a, b using setInter.induct with
  | case1 bs => simp [setInter, StrictSorted]
  | case2 a as => simp [setInter, StrictSorted]
  | case3 a as b bs hab ih =>
    intro ha hb; rw [setInter, if_pos hab]; exact ih ha.of_cons hb
  | case4 a as b bs hab hba ih =>
    intro ha hb; rw [setInter, if_neg hab, if_pos hba]; exact ih ha hb.of_cons
  | case5 a as b bs hab hba ih =>
    intro ha hb
    rw [setInter, if_neg hab, if_neg hba]
    refine List.pairwise_cons.2 ⟨?_, ih ha.of_cons hb.of_cons⟩
    intro x hx
    have hx' := (mem_setInter ha.of_cons hb.of_cons x).1 hx
    exact (List.pairwise_cons.1 ha).1 _ hx'.1

theorem mem_setUnion : ∀ {a b : List DocId}, StrictSorted a → StrictSorted b →
    ∀ x, x ∈ setUnion a b ↔ x ∈ a ∨ x ∈ b := by
  intro a b
  induction a, b using setUnion.induct with
  | case1 bs => simp [setUnion]
  | case2 a as => simp [setUnion]
  | case3 a as b bs hab ih =>
    intro ha hb x
    rw [setUnion, if_pos hab]
    simp only [List.mem_cons, ih ha.of_cons hb x]
    tauto
  | case4 a as b bs hab hba ih =>
    intro ha hb x
    rw [setUnion, if_neg hab, if_pos hba]
    simp only [List.mem_cons, ih ha hb.of_cons x]
    tauto
  | case5 a as b bs hab hba ih =>
    intro ha hb x
    have heq : a = b := le_antisymm (le_of_not_lt hba) (le_of_not_lt hab)
    subst heq
    rw [setUnion, if_neg hab, if_neg hba]
    simp only [List.mem_cons, ih ha.of_cons hb.of_cons x]
    tauto

theorem sorted_setUnion : ∀ {a b : List DocId}, StrictSorted a → StrictSorted b →
    StrictSorted (setUnion a b) := by
  intro a b
  induction a, b using setUnion.induct with
  | case1 bs => intro _ hb; simpa [setUnion] using hb
  | case2 a as => intro ha _; simpa [setUnion] using ha
  | case3 a as b bs hab ih =>
    intro ha hb
    rw [setUnion, if_pos hab]
    refine List.pairwise_cons.2 ⟨?_, ih ha.of_cons hb⟩
    intro x hx
    rcases (mem_setUnion ha.of_cons hb x).1 hx with h | h
    · exact (List.pairwise_cons.1 ha).1 _ h
    · rcases List.mem_cons.1 h with rfl | h'
      · exact hab
      · exact hab.trans ((List.pairwise_cons.1 hb).1 _ h')
  | case4 a as b bs hab hba ih =>
    intro ha hb
    rw [setUnion, if_neg hab, if_pos hba]
    refine List.pairwise_cons.2 ⟨?_, ih ha hb.of_cons⟩
    intro x hx
    rcases (mem_setUnion ha hb.of_cons x).1 hx with h | h
    · rcases List.mem_cons.1 h with rfl | h'
      · exact hba
      · exact hba.trans ((List.pairwise_cons.1 ha).1 _ h')
    · exact (List.pairwise_cons.1 hb).1 _ h
  | case5 a as b bs hab hba ih =>
    intro ha hb
    have heq : a = b := le_antisymm (le_of_not_lt hba) (le_of_not_lt hab)
    subst heq
    rw [setUnion, if_neg hab, if_neg hba]
    refine List.pairwise_cons.2 ⟨?_, ih ha.of_cons hb.of_cons⟩
    intro x hx
    rcases (mem_setUnion ha.of_cons hb.of_cons x).1 hx with h | h
    · exact (List.pairwise_cons.1 ha).1 _ h
    · exact (List.pairwise_cons.1 hb).1 _ h

/-- Two strictly ascending lists with the same members are equal. -/
theorem strictSorted_eq_of_mem {a b : List DocId} (ha : StrictSorted a) (hb : StrictSorted b)
    (h : ∀ x, x ∈ a ↔ x ∈ b) : a = b := by
  have hna : a.Nodup := ha.nodup
  have hnb : b.Nodup := hb.nodup
  have hperm : a.Perm b := (List.perm_ext_iff_of_nodup hna hnb).2 h
  exact List.eq_of_perm_of_sorted hperm ha hb

/-! ## Result unification (`BasicSearch::UnifyResults`, search.cc:129-143) -/

inductive LogicOp
  | and
  | or
deriving DecidableEq, Repr

/-- `BasicSearch::Merge` (search.cc:107-126): merge `matched ⊗ current` into a
fresh buffer with `std::set_intersection` / `std::set_union`, then swap the
buffer back into `current`. -/
def mergeResults (matched current : List DocId) (op : LogicOp) : List DocId :=
  match op with
  | .and => setInter matched current
  | .or => setUnion matched current

/-- The executor sorts sub-results ascending by size before folding
(search.cc:136-137, `sort` with `l.Size() < r.Size()`); `std::sort` is
unstable, modelled by insertion sort on the ≤-by-length relation. -/
def sortBySize (subs : List (List DocId)) : List (List DocId) :=
  subs.insertionSort (fun l r => l.length ≤ r.length)

/-- `BasicSearch::UnifyResults` (search.cc:129-143): empty input yields an empty
owned DocSet; otherwise sort by size, seed with the smallest, fold the rest. -/
def unifyResults (subs : List (List DocId)) (op : LogicOp) : List DocId :=
  match sortBySize subs with
  | [] => []
  | s :: rest => rest.foldl (fun acc m => mergeResults m acc op) s

theorem foldl_merge_and_spec : ∀ (rest : List (List DocId)) (seed : List DocId),
    StrictSorted seed → (∀ l ∈ rest, StrictSorted l) →
    StrictSorted (rest.foldl (fun acc m => mergeResults m acc .and) seed) ∧
    (∀ x, x ∈ rest.foldl (fun acc m => mergeResults m acc .and) seed ↔
      x ∈ seed ∧ ∀ l ∈ rest, x ∈ l)
  | [], seed => by
    intro hs _
    simp [hs]
  | m :: rest, seed => by
    intro hs hr
    simp only [List.foldl_cons]
    have hm : StrictSorted m := hr m (List.mem_cons_self _ _)
    have hmerge : StrictSorted (mergeResults m seed .and) := sorted_setInter hm hs
    have ih := foldl_merge_and_spec rest (mergeResults m seed .and) hmerge
      (fun l hl => hr l (List.mem_cons_of_mem _ hl))
    refine ⟨ih.1, fun x => ?_⟩
    rw [ih.2 x]
    have hmem : x ∈ mergeResults m seed .and ↔ x ∈ m ∧ x ∈ seed :=
      mem_setInter hm hs x
    rw [hmem]
    simp only [List.forall_mem_cons]
    tauto

theorem foldl_merge_or_spec : ∀ (rest : List (List DocId)) (seed : List DocId),
    StrictSorted seed → (∀ l ∈ rest, StrictSorted l) →
    StrictSorted (rest.foldl (fun acc m => mergeResults m acc .or) seed) ∧
    (∀ x, x ∈ rest.foldl (fun acc m => mergeResults m acc .or) seed ↔
      x ∈ seed ∨ ∃ l ∈ rest, x ∈ l)
  | [], seed => by
    intro hs _
    simp [hs]
  | m :: rest, seed => by
    intro hs hr
    simp only [List.foldl_cons]
    have hm : StrictSorted m := hr m (List.mem_cons_self _ _)
    have hmerge : StrictSorted (mergeResults m seed .or) := sorted_setUnion hm hs
    have ih := foldl_merge_or_spec rest (mergeResults m seed .or) hmerge
      (fun l hl => hr l (List.mem_cons_of_mem _ hl))
    refine ⟨ih.1, fun x => ?_⟩
    rw [ih.2 x]
    have hmem : x ∈ mergeResults m seed .or ↔ x ∈ m ∨ x ∈ seed :=
      mem_setUnion hm hs x
    rw [hmem]
    constructor
    · rintro ((h | h) | ⟨l, hl, hx⟩)
      · exact Or.inr ⟨m, List.mem_cons_self _ _, h⟩
      · exact Or.inl h
      · exact Or.inr ⟨l, List.mem_cons_of_mem _ hl, hx⟩
    · rintro (h | ⟨l, hl, hx⟩)
      · exact Or.inl (Or.inr h)
      · rcases List.mem_cons.1 hl with rfl | hl'
        · exact Or.inl (Or.inl hx)
        · exact Or.inr ⟨l, hl', hx⟩

theorem sortBySize_perm (subs : List (List DocId)) : (sortBySize subs).Perm subs :=
  List.perm_insertionSort _ subs

theorem unifyResults_sorted {subs : List (List DocId)} (h : ∀ l ∈ subs, StrictSorted l)
    (op : LogicOp) : StrictSorted (unifyResults subs op) := by
  unfold unifyResults
  have hsorted : ∀ l ∈ sortBySize subs, StrictSorted l :=
    fun l hl => h l ((sortBySize_perm subs).mem_iff.1 hl)
  cases hcase : sortBySize subs with
  | nil => simp [StrictSorted]
  | cons s rest =>
    have hs : StrictSorted s := hsorted s (hcase ▸ List.mem_cons_self _ _)
    have hr : ∀ l ∈ rest, StrictSorted l :=
      fun l hl => hsorted l (hcase ▸ List.mem_cons_of_mem _ hl)
    cases op with
    | and => exact (foldl_merge_and_spec rest s hs hr).1
    | or => exact (foldl_merge_or_spec rest s hs hr).1

theorem mem_unifyResults_and {subs : List (List DocId)} (hne : subs ≠ [])
    (h : ∀ l ∈ subs, StrictSorted l) :
    ∀ x, x ∈ unifyResults subs .and ↔ ∀ l ∈ subs, x ∈ l := by
  intro x
  unfold unifyResults
  have hperm := sortBySize_perm subs
  have hsorted : ∀ l ∈ sortBySize subs, StrictSorted l :=
    fun l hl => h l (hperm.mem_iff.1 hl)
  cases hcase : sortBySize subs with
  | nil =>
    exact absurd ((hcase ▸ hperm).symm.eq_nil) hne
  | cons s rest =>
    have hs : StrictSorted s := hsorted s (hcase ▸ List.mem_cons_self _ _)
    have hr : ∀ l ∈ rest, StrictSorted l :=
      fun l hl => hsorted l (hcase ▸ List.mem_cons_of_mem _ hl)
    rw [(foldl_merge_and_spec rest s hs hr).2 x]
    have hmemiff : ∀ l : List DocId, l ∈ subs ↔ l ∈ s :: rest := by
      intro l
      rw [← hcase]
      exact (hperm.mem_iff).symm
    constructor
    · rintro ⟨hxs, hrest⟩ l hl
      rcases List.mem_cons.1 ((hmemiff l).1 hl) with rfl | hl'
      · exact hxs
      · exact hrest l hl'
    · intro hall
      refine ⟨hall s ((hmemiff s).2 (List.mem_cons_self _ _)), fun l hl => ?_⟩
      exact hall l ((hmemiff l).2 (List.mem_cons_of_mem _ hl))

theorem mem_unifyResults_or {subs : List (List DocId)}
    (h : ∀ l ∈ subs, StrictSorted l) :
    ∀ x, x ∈ unifyResults subs .or ↔ ∃ l ∈ subs, x ∈ l := by
  intro x
  unfold unifyResults
  have hperm := sortBySize_perm subs
  have hsorted : ∀ l ∈ sortBySize subs, StrictSorted l :=
    fun l hl => h l (hperm.mem_iff.1 hl)
  cases hcase : sortBySize subs with
  | nil =>
    have : subs = [] := (hcase ▸ hperm).symm.eq_nil
    simp [this]
  | cons s rest =>
    have hs : StrictSorted s := hsorted s (hcase ▸ List.mem_cons_self _ _)
    have hr : ∀ l ∈ rest, StrictSorted l :=
      fun l hl => hsorted l (hcase ▸ List.mem_cons_of_mem _ hl)
    rw [(foldl_merge_or_spec rest s hs hr).2 x]
    have hmemiff : ∀ l : List DocId, l ∈ subs ↔ l ∈ s :: rest := by
      intro l
      rw [← hcase]
      exact (hperm.mem_iff).symm
    constructor
    · rintro (hxs | ⟨l, hl, hx⟩)
      · exact ⟨s, (hmemiff s).2 (List.mem_cons_self _ _), hxs⟩
      · exact ⟨l, (hmemiff l).2 (List.mem_cons_of_mem _ hl), hx⟩
    · rintro ⟨l, hl, hx⟩
      rcases List.mem_cons.1 ((hmemiff l).1 hl) with rfl | hl'
      · exact Or.inl hx
      · exact Or.inr ⟨l, hl', hx⟩

/-! ## Query AST and the `BasicSearch` executor (search.cc:82-262)

The per-field index implementations (`core/search/indices.cc`) and
`VectorDistance` (`core/search/vector.cc`) are not part of the supplied
sources; they enter the model as an abstract `FieldIndexModel` record of
query functions plus an abstract distance function, constrained only by the
FieldIndices invariants stated in the spec (posting lists sorted ascending
and drawn from `all_ids`). -/

/-- A query/document vector; components are rationals in the embedding. -/
abbrev FtVector := List Rat

/-- `NodeVariants` (ast_expr.h): sum type of AST nodes. `empty` is the
`monostate` alternative produced by a parse without an expression. -/
inductive AstNode where
  | empty
  | star
  | term (tok : String)
  | range (lo hi : Rat)
  | negate (child : AstNode)
  | logical (op : LogicOp) (children : List AstNode)
  | field (name : String) (child : AstNode)
  | tags (tags : List String)
  | knn (limit : Nat) (field : String) (vec : FtVector) (filter : AstNode)

/-- Abstract view of `FieldIndices` (search.cc:266-320): the global doc list
plus the query surface of the per-field indices. `textFields` lists the
TEXT-typed attribute names in schema order (`GetAllTextIndices`). -/
structure FieldIndexModel where
  allIds : List DocId
  textFields : List String
  textMatching : String → String → List DocId
  tagMatching : String → String → List DocId
  numRange : String → Rat → Rat → List DocId
  vecGet : String → DocId → FtVector

/-- FieldIndices invariants from the spec: every posting list is sorted
ascending, duplicate-free, and contains only currently indexed doc ids. -/
structure FieldIndexModel.Valid (idx : FieldIndexModel) : Prop where
  allSorted : StrictSorted idx.allIds
  textSorted : ∀ f tok, StrictSorted (idx.textMatching f tok)
  textSub : ∀ f tok d, d ∈ idx.textMatching f tok → d ∈ idx.allIds
  tagSorted : ∀ f t, StrictSorted (idx.tagMatching f t)
  tagSub : ∀ f t d, d ∈ idx.tagMatching f t → d ∈ idx.allIds
  numSorted : ∀ f lo hi, StrictSorted (idx.numRange f lo hi)
  numSub : ∀ f lo hi d, d ∈ idx.numRange f lo hi → d ∈ idx.allIds

/-- Entries of the executor state `distances_`: `pair<float, DocId>`. -/
abbrev DistPair := Rat × DocId

/-- Default `operator<` on `pair<float, DocId>` (lexicographic), as non-strict
total relation for sorting. -/
def distPairLe (p q : DistPair) : Prop := p.1 < q.1 ∨ (p.1 = q.1 ∧ p.2 ≤ q.2)

instance : DecidableRel distPairLe := by
  unfold distPairLe; infer_instance

instance : IsTotal DistPair distPairLe where
  total p q := by
    unfold distPairLe
    rcases lt_trichotomy p.1 q.1 with h | h | h
    · exact Or.inl (Or.inl h)
    · rcases Nat.le_total p.2 q.2 with h2 | h2
      · exact Or.inl (Or.inr ⟨h, h2⟩)
      · exact Or.inr (Or.inr ⟨h.symm, h2⟩)
    · exact Or.inr (Or.inl h)

instance : IsTrans DistPair distPairLe where
  trans p q r hpq hqr := by
    unfold distPairLe at *
    rcases hpq with h1 | ⟨h1, h1'⟩ <;> rcases hqr with h2 | ⟨h2, h2'⟩
    · exact Or.inl (h1.trans h2)
    · exact Or.inl (h2 ▸ h1)
    · exact Or.inl (h1 ▸ h2)
    · exact Or.inr ⟨h1.trans h2, h1'.trans h2'⟩

mutual

/-- The recursive evaluator: `BasicSearch::Search` overloads dispatched by
`SearchGeneric` (search.cc:145-243).  Arguments mirror the threaded state:
the active field (empty at top level) and the `distances_` member, which only
`Knn` evaluation appends to and sorts. `std::binary_search` over the sorted
child result in `Negate` is modelled by list membership (its precondition —
the child DocSet is sorted — is the executor sortedness invariant,
DCHECK at search.cc:239-240). -/
def evalNode (idx : FieldIndexModel) (dist : FtVector → FtVector → Rat) :
    AstNode → String → List DistPair → List DocId × List DistPair
  | .empty, _, st => ([], st)
  | .star, _, st => (idx.allIds, st)
  | .term tok, af, st =>
      if af.isEmpty then
        (unifyResults (idx.textFields.map (fun f => idx.textMatching f tok)) .or, st)
      else
        (idx.textMatching af tok, st)
  | .range lo hi, af, st => (idx.numRange af lo hi, st)
  | .negate child, af, st =>
      let res := evalNode idx dist child af st
      (idx.allIds.filter (fun d => !(res.1.contains d)), res.2)
  | .logical op children, af, st =>
      let res := evalList idx dist children af st
      (unifyResults res.1 op, res.2)
  | .field name child, _, st => evalNode idx dist child name st
  | .tags ts, af, st =>
      (unifyResults (ts.map (fun t => idx.tagMatching af t)) .or, st)
  | .knn limit fld v filter, af, st =>
      let res := evalNode idx dist filter af st
      let pairs := res.1.map (fun doc => (dist v (idx.vecGet fld doc), doc))
      let sorted := (res.2 ++ pairs).insertionSort distPairLe
      ((sorted.take limit).map Prod.snd, sorted)

/-- `GetSubResults` (search.cc:99-105): evaluate the children in index order,
threading the executor state. -/
def evalList (idx : FieldIndexModel) (dist : FtVector → FtVector → Rat) :
    List AstNode → String → List DistPair → List (List DocId) × List DistPair
  | [], _, st => ([], st)
  | n :: ns, af, st =>
      let r := evalNode idx dist n af st
      let rs := evalList idx dist ns af r.2
      (r.1 :: rs.1, rs.2)

end

/-- Top-level `BasicSearch::Search(const AstNode&)` (search.cc:245-257):
evaluate with empty active field; if `distances_` is non-empty, copy out the
first `result.Size()` distances as a parallel vector. -/
def searchTop (idx : FieldIndexModel) (dist : FtVector → FtVector → Rat)
    (q : AstNode) : List DocId × List Rat :=
  let res := evalNode idx dist q "" []
  if res.2.isEmpty then (res.1, [])
  else (res.1, (res.2.take res.1.length).map Prod.fst)

mutual

/-- `true` iff the AST contains no `Knn` node (the parser produces at most
one, at the root). -/
def knnFree : AstNode → Bool
  | .empty | .star | .term _ | .range _ _ | .tags _ => true
  | .negate c => knnFree c
  | .field _ c => knnFree c
  | .logical _ cs => knnFreeList cs
  | .knn _ _ _ _ => false

def knnFreeList : List AstNode → Bool
  | [] => true
  | n :: ns => knnFree n && knnFreeList ns

end

mutual

/-- If a query contains no `Knn` node, evaluation leaves the `distances_`
state untouched. -/
theorem evalNode_state (idx : FieldIndexModel) (dist : FtVector → FtVector → Rat) :
    ∀ (q : AstNode), knnFree q = true → ∀ af st, (evalNode idx dist q af st).2 = st
  | .empty, _, _, _ => rfl
  | .star, _, _, _ => rfl
  | .term tok, _, af, st => by
    simp only [evalNode]
    split <;> rfl
  | .range lo hi, _, _, _ => rfl
  | .negate c, h, af, st => by
    simp only [evalNode]
    exact evalNode_state idx dist c (by simpa [knnFree] using h) af st
  | .logical op cs, h, af, st => by
    simp only [evalNode]
    exact evalList_state idx dist cs (by simpa [knnFree] using h) af st
  | .field name c, h, _, st => by
    simp only [evalNode]
    exact evalNode_state idx dist c (by simpa [knnFree] using h) name st
  | .tags ts, _, _, _ => rfl
  | .knn _ _ _ _, h, _, _ => by simp [knnFree] at h

theorem evalList_state (idx : FieldIndexModel) (dist : FtVector → FtVector → Rat) :
    ∀ (qs : List AstNode), knnFreeList qs = true → ∀ af st,
      (evalList idx dist qs af st).2 = st
  | [], _, _, _ => rfl
  | n :: ns, h, af, st => by
    have hn : knnFree n = true := by
      simp [knnFreeList, Bool.and_eq_true] at h
      exact h.1
    have hns : knnFreeList ns = true := by
      simp [knnFreeList, Bool.and_eq_true] at h
      exact h.2
    simp only [evalList]
    rw [evalList_state idx dist ns hns af _, evalNode_state idx dist n hn af st]

end

mutual

/-- Executor invariant (the spec sortedness invariant plus the implicit
subset-of-`all_ids` fact): any Knn-free node evaluates to a strictly
ascending DocSet drawn from `all_ids`. -/
theorem evalNode_inv (idx : FieldIndexModel) (dist : FtVector → FtVector → Rat)
    (hv : idx.Valid) :
    ∀ (q : AstNode), knnFree q = true → ∀ af st,
      StrictSorted (evalNode idx dist q af st).1 ∧
      ∀ d ∈ (evalNode idx dist q af st).1, d ∈ idx.allIds
  | .empty, _, af, st => by
    constructor
    · simp [evalNode, StrictSorted]
    · simp [evalNode]
  | .star, _, af, st => by
    refine ⟨hv.allSorted, fun d hd => ?_⟩
    simpa [evalNode] using hd
  | .term tok, _, af, st => by
    simp only [evalNode]
    split
    · have hsub : ∀ l ∈ idx.textFields.map (fun f => idx.textMatching f tok),
          StrictSorted l := by
        intro l hl
        rcases List.mem_map.1 hl with ⟨f, _, rfl⟩
        exact hv.textSorted f tok
      refine ⟨unifyResults_sorted hsub .or, fun d hd => ?_⟩
      rcases (mem_unifyResults_or hsub d).1 hd with ⟨l, hl, hdl⟩
      rcases List.mem_map.1 hl with ⟨f, _, rfl⟩
      exact hv.textSub f tok d hdl
    · exact ⟨hv.textSorted af tok, fun d hd => hv.textSub af tok d hd⟩
  | .range lo hi, _, af, st =>
    ⟨hv.numSorted af lo hi, fun d hd => hv.numSub af lo hi d hd⟩
  | .negate c, h, af, st => by
    simp only [evalNode]
    constructor
    · exact hv.allSorted.filter _
    · intro d hd
      exact (List.mem_filter.1 hd).1
  | .logical op cs, h, af, st => by
    simp only [evalNode]
    have hcs := evalList_inv idx dist hv cs (by simpa [knnFree] using h) af st
    have hsorted : ∀ l ∈ (evalList idx dist cs af st).1, StrictSorted l :=
      fun l hl => (hcs l hl).1
    refine ⟨unifyResults_sorted hsorted op, fun d hd => ?_⟩
    cases op with
    | and =>
      cases hres : (evalList idx dist cs af st).1 with
      | nil => rw [hres] at hd; simp [unifyResults, sortBySize] at hd
      | cons r rs =>
        have hne : (evalList idx dist cs af st).1 ≠ [] := by simp [hres]
        have hmem := (mem_unifyResults_and hne hsorted d).1 hd
        have hr : r ∈ (evalList idx dist cs af st).1 := by
          rw [hres]; exact List.mem_cons_self _ _
        exact (hcs r hr).2 d (hmem r hr)
    | or =>
      rcases (mem_unifyResults_or hsorted d).1 hd with ⟨l, hl, hdl⟩
      exact (hcs l hl).2 d hdl
  | .field name c, h, af, st => by
    simp only [evalNode]
    exact evalNode_inv idx dist hv c (by simpa [knnFree] using h) name st
  | .tags ts, _, af, st => by
    simp only [evalNode]
    have hsub : ∀ l ∈ ts.map (fun t => idx.tagMatching af t), StrictSorted l := by
      intro l hl
      rcases List.mem_map.1 hl with ⟨t, _, rfl⟩
      exact hv.tagSorted af t
    refine ⟨unifyResults_sorted hsub .or, fun d hd => ?_⟩
    rcases (mem_unifyResults_or hsub d).1 hd with ⟨l, hl, hdl⟩
    rcases List.mem_map.1 hl with ⟨t, _, rfl⟩
    exact hv.tagSub af t d hdl
  | .knn _ _ _ _, h, _, _ => by simp [knnFree] at h

theorem evalList_inv (idx : FieldIndexModel) (dist : FtVector → FtVector → Rat)
    (hv : idx.Valid) :
    ∀ (qs : List AstNode), knnFreeList qs = true → ∀ af st,
      ∀ l ∈ (evalList idx dist qs af st).1,
        StrictSorted l ∧ ∀ d ∈ l, d ∈ idx.allIds
  | [], _, af, st => by simp [evalList]
  | n :: ns, h, af, st => by
    have hn : knnFree n = true := by
      simp [knnFreeList, Bool.and_eq_true] at h
      exact h.1
    have hns : knnFreeList ns = true := by
      simp [knnFreeList, Bool.and_eq_true] at h
      exact h.2
    intro l hl
    simp only [evalList] at hl
    rcases List.mem_cons.1 hl with rfl | hl'
    · exact evalNode_inv idx dist hv n hn af st
    · exact evalList_inv idx dist hv ns hns af _ l hl'

end

instance : IsTotal (List DocId) (fun l r => l.length ≤ r.length) where
  total a b := Nat.le_total a.length b.length

instance : IsTrans (List DocId) (fun l r => l.length ≤ r.length) where
  trans _ _ _ hab hbc := Nat.le_trans hab hbc

/-- C1: for AND/OR over sub-results that are each sorted ascending and
duplicate-free, `UnifyResults` sorts the sub-results ascending by size, seeds
the accumulator with the smallest and folds the rest in that order, and the
returned DocSet is the sorted intersection (AND) / union (OR) of all the
sub-results: it is strictly ascending, its members are characterised by
∀ / ∃ over the sub-results, and it equals any strictly ascending list with
that membership. -/
theorem unifyResults_is_sorted_set_algebra (op : LogicOp) (subs : List (List DocId))
    (hne : subs ≠ []) (hs : ∀ l ∈ subs, StrictSorted l) :
    ((sortBySize subs).Perm subs ∧
      (sortBySize subs).Sorted (fun l r => l.length ≤ r.length)) ∧
    StrictSorted (unifyResults subs op) ∧
    (∀ x, x ∈ unifyResults subs op ↔ match op with
      | .and => ∀ l ∈ subs, x ∈ l
      | .or => ∃ l ∈ subs, x ∈ l) ∧
    (∀ target, StrictSorted target →
      (∀ x, x ∈ target ↔ match op with
        | .and => ∀ l ∈ subs, x ∈ l
        | .or => ∃ l ∈ subs, x ∈ l) →
      unifyResults subs op = target) := by
  have hmem : ∀ x, x ∈ unifyResults subs op ↔ match op with
      | .and => ∀ l ∈ subs, x ∈ l
      | .or => ∃ l ∈ subs, x ∈ l := by
    intro x
    cases op with
    | and => exact mem_unifyResults_and hne hs x
    | or => exact mem_unifyResults_or hs x
  refine ⟨⟨sortBySize_perm subs, List.sorted_insertionSort _ subs⟩,
    unifyResults_sorted hs op, hmem, fun target htgt htgtmem => ?_⟩
  refine strictSorted_eq_of_mem (unifyResults_sorted hs op) htgt fun x => ?_
  rw [hmem x, htgtmem x]

/-- Witness for C1 at a concrete input. -/
theorem unifyResults_is_sorted_set_algebra_witness :
    [[2, 3], [1, 2, 3], [2, 4]] ≠ ([] : List (List DocId)) ∧
    StrictSorted (unifyResults [[2, 3], [1, 2, 3], [2, 4]] .and) ∧
    ∀ x, x ∈ unifyResults [[2, 3], [1, 2, 3], [2, 4]] .and ↔
      ∀ l ∈ [[2, 3], [1, 2, 3], [2, 4]], x ∈ l := by
  have h := unifyResults_is_sorted_set_algebra .and [[2, 3], [1, 2, 3], [2, 4]]
    (by decide) (by decide)
  exact ⟨by decide, h.2.1, h.2.2.1⟩

/-- A small concrete FieldIndices model used by the witnesses. -/
def exIdx : FieldIndexModel where
  allIds := [1, 2, 3]
  textFields := ["title"]
  textMatching := fun f tok => if f = "title" && tok = "apple" then [1, 2] else []
  tagMatching := fun f t => if f = "tag" && t = "sale" then [1, 3] else []
  numRange := fun f lo hi => if f = "price" && decide (lo ≤ hi) then [2, 3] else []
  vecGet := fun _ d => [(d : Rat), 0]

theorem exIdx_valid : exIdx.Valid := by
  constructor
  · decide
  · intro f tok
    simp only [exIdx]
    split <;> decide
  · intro f tok d hd
    simp only [exIdx] at hd ⊢
    split at hd
    · simp only [List.mem_cons, List.not_mem_nil, or_false] at hd ⊢
      tauto
    · simp at hd
  · intro f t
    simp only [exIdx]
    split <;> decide
  · intro f t d hd
    simp only [exIdx] at hd ⊢
    split at hd
    · simp only [List.mem_cons, List.not_mem_nil, or_false] at hd ⊢
      tauto
    · simp at hd
  · intro f lo hi
    simp only [exIdx]
    split <;> decide
  · intro f lo hi d hd
    simp only [exIdx] at hd ⊢
    split at hd
    · simp only [List.mem_cons, List.not_mem_nil, or_false] at hd ⊢
      tauto
    · simp at hd

/-- Squared Euclidean distance, standing in for `VectorDistance`
(core/search/vector.cc, outside the supplied sources). -/
def exDist (a b : FtVector) : Rat :=
  ((a.zip b).map (fun p => (p.1 - p.2) * (p.1 - p.2))).sum

/-- C8: wrapping any Knn-free query in a double negation yields exactly the
same DocSet (even as a list, hence also as a set): `Negate` returns
`all_ids ∖ M` and every node result is a subset of `all_ids`. -/
theorem double_negation_id (idx : FieldIndexModel) (dist : FtVector → FtVector → Rat)
    (hv : idx.Valid) (q : AstNode) (hq : knnFree q = true) (af : String)
    (st : List DistPair) :
    (evalNode idx dist (.negate (.negate q)) af st).1 = (evalNode idx dist q af st).1 := by
  simp only [evalNode]
  have hinv := evalNode_inv idx dist hv q hq af st
  set M := (evalNode idx dist q af st).1 with hM
  set N1 := idx.allIds.filter (fun d => !(M.contains d)) with hN1
  have hN1mem : ∀ y, y ∈ N1 ↔ y ∈ idx.allIds ∧ y ∉ M := by
    intro y
    rw [hN1, List.mem_filter]
    simp
  refine strictSorted_eq_of_mem (hv.allSorted.filter _) hinv.1 fun x => ?_
  rw [List.mem_filter]
  constructor
  · rintro ⟨hall, hnot⟩
    by_contra hxm
    have hmem : x ∈ N1 := (hN1mem x).2 ⟨hall, hxm⟩
    have hc : N1.contains x = true := List.elem_iff.2 hmem
    simp [hc] at hnot
    exact hnot hmem
  · intro hxm
    refine ⟨hinv.2 x hxm, ?_⟩
    show (!(N1.contains x)) = true
    rcases Bool.eq_false_or_eq_true (N1.contains x) with h' | h'
    · have hmem : x ∈ N1 := List.elem_iff.1 h'
      exact absurd ((hN1mem x).1 hmem).2 (not_not_intro hxm)
    · rw [h']
      rfl

/-- Witness for C8 at a concrete query. -/
theorem double_negation_id_witness :
    (evalNode exIdx exDist (.negate (.negate (.term "apple"))) "" []).1 =
      (evalNode exIdx exDist (.term "apple") "" []).1 :=
  double_negation_id exIdx exDist exIdx_valid (.term "apple") rfl "" []

/-- C10: unifying an empty list of sub-results returns the empty DocSet for
both AND and OR; a `Logical` node with no children, a field-less `Term` in a
schema with no text fields, and a `Tags` node with an empty tag list all
evaluate to the empty result. -/
theorem empty_unify_empty_result :
    (∀ op, unifyResults [] op = []) ∧
    (∀ (idx : FieldIndexModel) dist op af st,
      evalNode idx dist (.logical op []) af st = ([], st)) ∧
    (∀ (idx : FieldIndexModel) dist tok st, idx.textFields = [] →
      evalNode idx dist (.term tok) "" st = ([], st)) ∧
    (∀ (idx : FieldIndexModel) dist af st,
      evalNode idx dist (.tags []) af st = ([], st)) := by
  refine ⟨fun op => rfl, fun idx dist op af st => rfl, ?_, fun idx dist af st => rfl⟩
  intro idx dist tok st h
  have hempty : ("".isEmpty) = true := by decide
  simp [evalNode, h, hempty, unifyResults, sortBySize]

/-- A FieldIndices model over a schema with no text fields. -/
def exIdxNoText : FieldIndexModel where
  allIds := [1, 2]
  textFields := []
  textMatching := fun _ _ => []
  tagMatching := fun _ _ => []
  numRange := fun _ _ _ => []
  vecGet := fun _ _ => []

/-- Witness for C10: the field-less term case at a concrete model. -/
theorem empty_unify_empty_result_witness :
    evalNode exIdxNoText exDist (.term "apple") "" [] = ([], []) :=
  empty_unify_empty_result.2.2.1 exIdxNoText exDist "apple" [] rfl

/-- Helper: on a Knn-free filter the Knn node evaluation from an empty
`distances_` state reduces to sorting the filter's scored pairs. -/
theorem evalNode_knn_eq (idx : FieldIndexModel) (dist : FtVector → FtVector → Rat)
    (limit : Nat) (fld : String) (v : FtVector) (filter : AstNode)
    (hfilter : knnFree filter = true) :
    evalNode idx dist (.knn limit fld v filter) "" [] =
      ((((evalNode idx dist filter "" []).1.map
          (fun doc => (dist v (idx.vecGet fld doc), doc))).insertionSort
            distPairLe).take limit |>.map Prod.snd,
        ((evalNode idx dist filter "" []).1.map
          (fun doc => (dist v (idx.vecGet fld doc), doc))).insertionSort distPairLe) := by
  simp only [evalNode]
  rw [evalNode_state idx dist filter hfilter "" []]
  simp

theorem distPairLe_fst {p q : DistPair} (h : distPairLe p q) : p.1 ≤ q.1 := by
  rcases h with h | ⟨h, _⟩
  · exact le_of_lt h
  · exact le_of_eq h

/-- C2: top-level Knn evaluation.  With `F = eval(filter)` the result contains
exactly `min(limit, |F|)` pairwise-distinct docs of `F`; the returned
distances vector is the doc list mapped through the field distance (parallel:
position `i` of `distances` belongs to position `i` of the doc list), it is
ascending, and every returned doc is at least as close to the query vector as
every non-returned doc of `F`.  Finally, a Knn-free AST yields an empty
distances vector, so distances are populated only by a Knn node. -/
theorem knn_search_spec (idx : FieldIndexModel) (dist : FtVector → FtVector → Rat)
    (hv : idx.Valid) (limit : Nat) (fld : String) (v : FtVector) (filter : AstNode)
    (hfilter : knnFree filter = true) :
    (searchTop idx dist (.knn limit fld v filter)).1.length =
        min limit (evalNode idx dist filter "" []).1.length ∧
    (searchTop idx dist (.knn limit fld v filter)).2 =
        (searchTop idx dist (.knn limit fld v filter)).1.map
          (fun d => dist v (idx.vecGet fld d)) ∧
    List.Sorted (· ≤ ·) (searchTop idx dist (.knn limit fld v filter)).2 ∧
    (searchTop idx dist (.knn limit fld v filter)).1.Nodup ∧
    (∀ d ∈ (searchTop idx dist (.knn limit fld v filter)).1,
        d ∈ (evalNode idx dist filter "" []).1) ∧
    (∀ d ∈ (searchTop idx dist (.knn limit fld v filter)).1,
      ∀ d' ∈ (evalNode idx dist filter "" []).1,
        d' ∉ (searchTop idx dist (.knn limit fld v filter)).1 →
          dist v (idx.vecGet fld d) ≤ dist v (idx.vecGet fld d')) ∧
    (∀ q : AstNode, knnFree q = true → (searchTop idx dist q).2 = []) := by
  have hF := evalNode_inv idx dist hv filter hfilter "" []
  set F := (evalNode idx dist filter "" []).1 with hFdef
  set pairOf : DocId → DistPair := fun doc => (dist v (idx.vecGet fld doc), doc)
    with hpairOf
  set pairs : List DistPair := F.map pairOf with hpairs
  set sorted : List DistPair := pairs.insertionSort distPairLe with hsorted
  have hknn : evalNode idx dist (.knn limit fld v filter) "" [] =
      ((sorted.take limit).map Prod.snd, sorted) :=
    evalNode_knn_eq idx dist limit fld v filter hfilter
  have hperm : sorted.Perm pairs := List.perm_insertionSort _ pairs
  have hsortsorted : List.Sorted distPairLe sorted :=
    List.sorted_insertionSort _ pairs
  have htakepw : (sorted.take limit).Pairwise distPairLe :=
    List.Pairwise.sublist (List.take_sublist _ _) hsortsorted
  have hmempair : ∀ p ∈ sorted, p.1 = dist v (idx.vecGet fld p.2) := by
    intro p hp
    rcases List.mem_map.1 (hperm.mem_iff.1 hp) with ⟨d, _, rfl⟩
    rfl
  have hmemtake : ∀ p ∈ sorted.take limit, p.1 = dist v (idx.vecGet fld p.2) :=
    fun p hp => hmempair p ((List.take_sublist _ _).subset hp)
  have hlen : sorted.length = F.length := by
    rw [hperm.length_eq, hpairs, List.length_map]
  -- result docs and the parallel distances
  set docs : List DocId := (sorted.take limit).map Prod.snd with hdocs
  have hdocslen : docs.length = min limit sorted.length := by
    rw [hdocs, List.length_map, List.length_take]
  have hds : (sorted.take docs.length).map Prod.fst =
      docs.map (fun d => dist v (idx.vecGet fld d)) := by
    have htake : sorted.take docs.length = sorted.take limit := by
      rw [List.take_eq_take, hdocslen, min_assoc, min_self]
    rw [htake, hdocs, List.map_map]
    exact List.map_congr_left fun p hp => hmemtake p hp
  have hout : searchTop idx dist (.knn limit fld v filter) =
      (docs, docs.map (fun d => dist v (idx.vecGet fld d))) := by
    unfold searchTop
    rw [hknn]
    rcases Bool.eq_false_or_eq_true sorted.isEmpty with hemp | hemp
    · have hnil : sorted = [] := List.isEmpty_iff.1 hemp
      have hdnil : docs = [] := by simp [hdocs, hnil]
      simp [hemp, hnil, hdnil]
    · rw [if_neg (by simp [hemp])]
      exact congrArg _ hds
  rw [hout]
  refine ⟨by simpa [hlen] using hdocslen, rfl, ?_, ?_, ?_, ?_, ?_⟩
  · -- distances ascending
    have : (docs.map (fun d => dist v (idx.vecGet fld d))) =
        (sorted.take limit).map Prod.fst := by
      rw [hdocs, List.map_map]
      exact List.map_congr_left fun p hp => (hmemtake p hp).symm
    rw [this]
    exact htakepw.map _ fun p q h => distPairLe_fst h
  · -- nodup
    have hpairsnodup : pairs.Nodup := by
      refine hF.1.nodup.map ?_
      intro d e h
      exact congrArg Prod.snd h
    have htakenodup : (sorted.take limit).Nodup :=
      List.Nodup.sublist (List.take_sublist _ _) (hperm.nodup_iff.2 hpairsnodup)
    refine htakenodup.map_on ?_
    intro p hp q hq hsnd
    have h1 := hmemtake p hp
    have h2 := hmemtake q hq
    have : p.1 = q.1 := by rw [h1, h2, hsnd]
    exact Prod.ext this hsnd
  · -- subset of F
    intro d hd
    rcases List.mem_map.1 hd with ⟨p, hp, rfl⟩
    have hpairmem : p ∈ pairs := hperm.mem_iff.1 ((List.take_sublist _ _).subset hp)
    rcases List.mem_map.1 hpairmem with ⟨d', hd', heq⟩
    have : d' = p.2 := congrArg Prod.snd heq
    rwa [← this]
  · -- minimality: returned docs are the closest
    intro d hd d' hd' hnot
    rcases List.mem_map.1 hd with ⟨p, hp, rfl⟩
    have hp1 : p.1 = dist v (idx.vecGet fld p.2) := hmemtake p hp
    have hq : pairOf d' ∈ sorted := hperm.mem_iff.2 (List.mem_map_of_mem _ hd')
    have hqdrop : pairOf d' ∈ sorted.drop limit := by
      rw [← List.take_append_drop limit sorted] at hq
      rcases List.mem_append.1 hq with h | h
      · exact absurd (List.mem_map_of_mem Prod.snd h) hnot
      · exact h
    have hle : distPairLe p (pairOf d') := by
      have hsplit := hsortsorted
      rw [← List.take_append_drop limit sorted] at hsplit
      exact (List.pairwise_append.1 hsplit).2.2 p hp _ hqdrop
    have := distPairLe_fst hle
    rwa [hp1] at this
  · -- Knn-free queries do not populate distances
    intro q hq
    simp only [searchTop]
    rw [evalNode_state idx dist q hq "" []]
    simp

/-- Witness for C2 at a concrete model and query. -/
theorem knn_search_spec_witness :
    (searchTop exIdx exDist (.knn 2 "v" [0, 0] .star)).1.length =
      min 2 (evalNode exIdx exDist .star "" []).1.length ∧
    List.Sorted (· ≤ ·) (searchTop exIdx exDist (.knn 2 "v" [0, 0] .star)).2 := by
  have h := knn_search_spec exIdx exDist exIdx_valid 2 "v" [0, 0] .star rfl
  exact ⟨h.1, h.2.2.1⟩

/-! ## `FieldIndices::Add` / `FieldIndices::Remove` (search.cc:285-299) -/

/-- `FieldIndices::Add`: `all_ids_.insert(upper_bound(...), doc)` — insert
before the first element strictly greater than `doc`. -/
def upperBoundInsert (doc : DocId) : List DocId → List DocId
  | [] => [doc]
  | x :: xs => if x ≤ doc then x :: upperBoundInsert doc xs else doc :: x :: xs

/-- `FieldIndices::Remove`: `lower_bound` to the first element ≥ `doc`, then
`CHECK(it != all_ids_.end() && *it == doc)` and erase.  `none` models the
fatal CHECK firing. -/
def lowerBoundErase (doc : DocId) : List DocId → Option (List DocId)
  | [] => none
  | x :: xs =>
    if x < doc then (lowerBoundErase doc xs).map (x :: ·)
    else if x = doc then some xs
    else none

inductive FIOp
  | add (doc : DocId)
  | remove (doc : DocId)
deriving DecidableEq, Repr

/-- A sequence of `Add`/`Remove` calls acting on `all_ids`, starting from a
given state; a `Remove` hitting the CHECK aborts the run. -/
def runOpsFrom (l : List DocId) : List FIOp → Option (List DocId)
  | [] => some l
  | FIOp.add d :: ops => runOpsFrom (upperBoundInsert d l) ops
  | FIOp.remove d :: ops =>
    match lowerBoundErase d l with
    | some l' => runOpsFrom l' ops
    | none => none

def runOps (ops : List FIOp) : Option (List DocId) := runOpsFrom [] ops

/-- The claim's hypothesis: every removed doc is present when removed. -/
def removesPresentFrom (cur : List DocId) : List FIOp → Bool
  | [] => true
  | FIOp.add d :: ops => removesPresentFrom (upperBoundInsert d cur) ops
  | FIOp.remove d :: ops =>
    match lowerBoundErase d cur with
    | some cur' => removesPresentFrom cur' ops
    | none => false

/-- The amended hypothesis: additionally, doc ids are never reused (`seen`
collects every id ever added). -/
def opsValidFrom (seen cur : List DocId) : List FIOp → Bool
  | [] => true
  | FIOp.add d :: ops =>
    !seen.contains d && opsValidFrom (d :: seen) (upperBoundInsert d cur) ops
  | FIOp.remove d :: ops =>
    match lowerBoundErase d cur with
    | some cur' => opsValidFrom seen cur' ops
    | none => false

def addedIn : List FIOp → DocId → Bool
  | [], _ => false
  | FIOp.add e :: ops, d => e == d || addedIn ops d
  | FIOp.remove _ :: ops, d => addedIn ops d

def removedIn : List FIOp → DocId → Bool
  | [], _ => false
  | FIOp.add _ :: ops, d => removedIn ops d
  | FIOp.remove e :: ops, d => e == d || removedIn ops d

theorem mem_upperBoundInsert (d : DocId) :
    ∀ (l : List DocId) (x : DocId), x ∈ upperBoundInsert d l ↔ x = d ∨ x ∈ l
  | [], x => by simp [upperBoundInsert]
  | y :: ys, x => by
    simp only [upperBoundInsert]
    split
    · simp only [List.mem_cons, mem_upperBoundInsert d ys x]
      tauto
    · simp only [List.mem_cons]

theorem upperBoundInsert_sorted (d : DocId) :
    ∀ (l : List DocId), StrictSorted l → d ∉ l → StrictSorted (upperBoundInsert d l)
  | [], _, _ => by simp [upperBoundInsert, StrictSorted]
  | y :: ys, hs, hd => by
    simp only [upperBoundInsert]
    split
    · rename_i hle
      have hyd : y < d := lt_of_le_of_ne hle (fun h => hd (h ▸ List.mem_cons_self _ _))
      refine List.pairwise_cons.2 ⟨?_, upperBoundInsert_sorted d ys hs.of_cons
        (fun h => hd (List.mem_cons_of_mem _ h))⟩
      intro x hx
      rcases (mem_upperBoundInsert d ys x).1 hx with rfl | hx'
      · exact hyd
      · exact (List.pairwise_cons.1 hs).1 _ hx'
    · rename_i hgt
      have hdy : d < y := lt_of_not_le hgt
      refine List.pairwise_cons.2 ⟨?_, hs⟩
      intro x hx
      rcases List.mem_cons.1 hx with rfl | hx'
      · exact hdy
      · exact hdy.trans ((List.pairwise_cons.1 hs).1 _ hx')

theorem lowerBoundErase_none (d : DocId) :
    ∀ (l : List DocId), StrictSorted l → d ∉ l → lowerBoundErase d l = none
  | [], _, _ => rfl
  | y :: ys, hs, hd => by
    have hne : y ≠ d := fun h => hd (h ▸ List.mem_cons_self _ _)
    simp only [lowerBoundErase]
    by_cases hlt : y < d
    · rw [if_pos hlt,
        lowerBoundErase_none d ys hs.of_cons (fun h => hd (List.mem_cons_of_mem _ h))]
      rfl
    · rw [if_neg hlt, if_neg hne]

theorem lowerBoundErase_spec (d : DocId) :
    ∀ (l l' : List DocId), StrictSorted l → lowerBoundErase d l = some l' →
      StrictSorted l' ∧ (∀ x, x ∈ l' ↔ x ∈ l ∧ x ≠ d) ∧ d ∈ l
  | [], l', _, h => by simp [lowerBoundErase] at h
  | y :: ys, l', hs, h => by
    simp only [lowerBoundErase] at h
    by_cases hlt : y < d
    · rw [if_pos hlt] at h
      rcases hmap : lowerBoundErase d ys with _ | m
      · rw [hmap] at h; simp at h
      · rw [hmap] at h
        obtain rfl : y :: m = l' := by simpa using h
        obtain ⟨hm_sorted, hm_mem, hm_in⟩ := lowerBoundErase_spec d ys m hs.of_cons hmap
        refine ⟨?_, ?_, List.mem_cons_of_mem _ hm_in⟩
        · refine List.pairwise_cons.2 ⟨?_, hm_sorted⟩
          intro x hx
          exact (List.pairwise_cons.1 hs).1 _ ((hm_mem x).1 hx).1
        · intro x
          simp only [List.mem_cons, hm_mem x]
          constructor
          · rintro (rfl | ⟨hx, hne⟩)
            · exact ⟨Or.inl rfl, fun hxd => absurd (hxd ▸ hlt) (lt_irrefl _)⟩
            · exact ⟨Or.inr hx, hne⟩
          · rintro ⟨rfl | hx, hne⟩
            · exact Or.inl rfl
            · exact Or.inr ⟨hx, hne⟩
    · rw [if_neg hlt] at h
      by_cases heq : y = d
      · rw [if_pos heq] at h
        obtain rfl : ys = l' := by simpa using h
        subst heq
        refine ⟨hs.of_cons, ?_, List.mem_cons_self _ _⟩
        intro x
        simp only [List.mem_cons]
        constructor
        · intro hx
          have := (List.pairwise_cons.1 hs).1 _ hx
          exact ⟨Or.inr hx, fun h' => absurd (h' ▸ this) (lt_irrefl _)⟩
        · rintro ⟨rfl | hx, hne⟩
          · exact absurd rfl hne
          · exact hx
      · rw [if_neg heq] at h
        exact absurd h (by simp)

/-- Doc ids already `seen` are never added again in a valid op sequence. -/
theorem opsValid_no_readd : ∀ (ops : List FIOp) (seen cur : List DocId),
    opsValidFrom seen cur ops = true → ∀ d ∈ seen, addedIn ops d = false
  | [], _, _, _ => by intro d _; rfl
  | FIOp.add e :: ops, seen, cur, h => by
    intro d hd
    simp only [opsValidFrom, Bool.and_eq_true, Bool.not_eq_true'] at h
    simp only [addedIn, Bool.or_eq_false_iff]
    constructor
    · rcases Bool.eq_false_or_eq_true (e == d) with hb | hb
      · have : e = d := by simpa using hb
        subst this
        have hc : seen.contains e = true := List.elem_iff.2 hd
        rw [h.1] at hc
        exact absurd hc Bool.false_ne_true
      · exact hb
    · exact opsValid_no_readd ops _ _ h.2 d (List.mem_cons_of_mem _ hd)
  | FIOp.remove e :: ops, seen, cur, h => by
    intro d hd
    simp only [opsValidFrom] at h
    rcases herase : lowerBoundErase e cur with _ | cur'
    · rw [herase] at h; simp at h
    · rw [herase] at h
      simpa [addedIn] using opsValid_no_readd ops _ _ h d hd

/-- Main induction for C4 (amended): from a sorted state whose members were
all seen, a valid op sequence runs to completion and yields a sorted state
whose members are the initial ones plus those added minus those removed. -/
theorem runOpsFrom_inv : ∀ (ops : List FIOp) (seen cur : List DocId),
    StrictSorted cur → (∀ d ∈ cur, d ∈ seen) → opsValidFrom seen cur ops = true →
    ∃ res, runOpsFrom cur ops = some res ∧ StrictSorted res ∧
      (∀ d, d ∈ res ↔ ((d ∈ cur ∨ addedIn ops d = true) ∧ removedIn ops d = false))
  | [], seen, cur, hs, _, _ => by
    refine ⟨cur, rfl, hs, fun d => ?_⟩
    simp [addedIn, removedIn]
  | FIOp.add e :: ops, seen, cur, hs, hsub, h => by
    simp only [opsValidFrom, Bool.and_eq_true, Bool.not_eq_true'] at h
    have hecur : e ∉ cur := fun hc => by
      have hc' : seen.contains e = true := List.elem_iff.2 (hsub e hc)
      rw [h.1] at hc'
      exact absurd hc' Bool.false_ne_true
    have hs' : StrictSorted (upperBoundInsert e cur) := upperBoundInsert_sorted e cur hs hecur
    have hsub' : ∀ d ∈ upperBoundInsert e cur, d ∈ e :: seen := by
      intro d hd
      rcases (mem_upperBoundInsert e cur d).1 hd with rfl | hd'
      · exact List.mem_cons_self _ _
      · exact List.mem_cons_of_mem _ (hsub d hd')
    obtain ⟨res, hrun, hres_sorted, hres_mem⟩ := runOpsFrom_inv ops (e :: seen) _ hs' hsub' h.2
    refine ⟨res, hrun, hres_sorted, fun d => ?_⟩
    rw [hres_mem d, mem_upperBoundInsert e cur d]
    simp only [addedIn, removedIn, Bool.or_eq_true, beq_iff_eq]
    constructor
    · rintro ⟨(rfl | hd) | hd, hrem⟩
      · exact ⟨Or.inr (Or.inl rfl), hrem⟩
      · exact ⟨Or.inl hd, hrem⟩
      · exact ⟨Or.inr (Or.inr hd), hrem⟩
    · rintro ⟨hd | rfl | hd, hrem⟩
      · exact ⟨Or.inl (Or.inr hd), hrem⟩
      · exact ⟨Or.inl (Or.inl rfl), hrem⟩
      · exact ⟨Or.inr hd, hrem⟩
  | FIOp.remove e :: ops, seen, cur, hs, hsub, h => by
    simp only [opsValidFrom] at h
    rcases herase : lowerBoundErase e cur with _ | cur'
    · rw [herase] at h; simp at h
    · rw [herase] at h
      obtain ⟨hcur'_sorted, hcur'_mem, he_in⟩ := lowerBoundErase_spec e cur cur' hs herase
      have hsub' : ∀ d ∈ cur', d ∈ seen := fun d hd => hsub d ((hcur'_mem d).1 hd).1
      have hnoreadd : addedIn ops e = false :=
        opsValid_no_readd ops seen cur' h e (hsub e he_in)
      obtain ⟨res, hrun, hres_sorted, hres_mem⟩ := runOpsFrom_inv ops seen cur'
        hcur'_sorted hsub' h
      refine ⟨res, ?_, hres_sorted, fun d => ?_⟩
      · simp only [runOpsFrom, herase]
        exact hrun
      · rw [hres_mem d, hcur'_mem d]
        simp only [addedIn, removedIn, Bool.or_eq_false_iff, beq_eq_false_iff_ne, ne_eq]
        constructor
        · rintro ⟨(⟨hd, hne⟩ | hadd), hrem⟩
          · exact ⟨Or.inl hd, fun h' => hne h'.symm, hrem⟩
          · refine ⟨Or.inr hadd, fun h' => ?_, hrem⟩
            subst h'
            rw [hnoreadd] at hadd
            exact Bool.false_ne_true hadd
        · rintro ⟨(hd | hadd), hne, hrem⟩
          · exact ⟨Or.inl ⟨hd, fun h' => hne h'.symm⟩, hrem⟩
          · exact ⟨Or.inr hadd, hrem⟩

/-- C4 counterexample: the claim as stated (hypotheses only on removals) is
false — adding id 5 twice and removing it once satisfies
"each removed doc is currently present", yet `all_ids` ends as `[5]` while
the *set* of ids added-so-far minus removed is empty. -/
theorem fieldIndices_allIds_counterexample :
    removesPresentFrom [] [FIOp.add 5, FIOp.add 5, FIOp.remove 5] = true ∧
    runOps [FIOp.add 5, FIOp.add 5, FIOp.remove 5] = some [5] ∧
    ¬ ((5 : DocId) ∈ [(5 : DocId)] ↔
        (addedIn [FIOp.add 5, FIOp.add 5, FIOp.remove 5] 5 = true ∧
         removedIn [FIOp.add 5, FIOp.add 5, FIOp.remove 5] 5 = false)) := by
  refine ⟨rfl, rfl, ?_⟩
  intro hiff
  have := (hiff.1 (List.mem_singleton.2 rfl)).2
  simp [removedIn] at this

/-- C4 (amended): if additionally no doc id is ever added twice (the data
model's "doc ids are not reused"), then `all_ids` stays strictly ascending
and equals the set of ids added so far minus those removed; and removing an
id that is not present always hits the fatal CHECK (`none`), never a silent
no-op. -/
theorem fieldIndices_allIds_inv (ops : List FIOp)
    (hwf : opsValidFrom [] [] ops = true) :
    (∃ res, runOps ops = some res ∧ StrictSorted res ∧
      (∀ d, d ∈ res ↔ (addedIn ops d = true ∧ removedIn ops d = false))) ∧
    (∀ (l : List DocId) (d : DocId), StrictSorted l → d ∉ l →
      lowerBoundErase d l = none) := by
  constructor
  · obtain ⟨res, hrun, hsorted, hmem⟩ := runOpsFrom_inv ops [] []
      (by simp [StrictSorted]) (by simp) hwf
    refine ⟨res, hrun, hsorted, fun d => ?_⟩
    rw [hmem d]
    simp
  · intro l d hs hd
    exact lowerBoundErase_none d l hs hd

/-- Witness for C4 (amended) at a concrete op sequence. -/
theorem fieldIndices_allIds_inv_witness :
    opsValidFrom [] [] [FIOp.add 1, FIOp.add 3, FIOp.remove 3, FIOp.add 2] = true ∧
    (∃ res, runOps [FIOp.add 1, FIOp.add 3, FIOp.remove 3, FIOp.add 2] = some res ∧
      StrictSorted res ∧
      (∀ d, d ∈ res ↔
        (addedIn [FIOp.add 1, FIOp.add 3, FIOp.remove 3, FIOp.add 2] d = true ∧
         removedIn [FIOp.add 1, FIOp.add 3, FIOp.remove 3, FIOp.add 2] d = false))) :=
  ⟨by decide,
    (fieldIndices_allIds_inv [FIOp.add 1, FIOp.add 3, FIOp.remove 3, FIOp.add 2]
      (by decide)).1⟩

/-! ## Sorted set (`core/sorted_map.cc`)

Scores are IEEE-754 doubles in the source; the embedding models a double as
a finite rational, ±∞ or NaN (`DD`), with IEEE comparison semantics (every
comparison involving NaN is false). -/

inductive DD where
  | fin (q : Rat)
  | pinf
  | ninf
  | nan
deriving DecidableEq, Repr

namespace DD

/-- IEEE addition restricted to what the claims need: any NaN operand and
∞ + (−∞) give NaN; finite overflow is not modelled (it yields ±∞, never
NaN). -/
def add : DD → DD → DD
  | nan, _ => nan
  | _, nan => nan
  | pinf, ninf => nan
  | ninf, pinf => nan
  | pinf, _ => pinf
  | _, pinf => pinf
  | ninf, _ => ninf
  | _, ninf => ninf
  | fin a, fin b => fin (a + b)

def isNan : DD → Bool
  | nan => true
  | _ => false

/-- IEEE `<` (false whenever an operand is NaN). -/
def lt : DD → DD → Bool
  | nan, _ => false
  | _, nan => false
  | ninf, ninf => false
  | ninf, _ => true
  | _, ninf => false
  | pinf, _ => false
  | fin _, pinf => true
  | fin a, fin b => decide (a < b)

/-- IEEE `==` (false whenever an operand is NaN). -/
def ieeeEq : DD → DD → Bool
  | fin a, fin b => a == b
  | pinf, pinf => true
  | ninf, ninf => true
  | _, _ => false

/-- IEEE `>=`. -/
def ge (a b : DD) : Bool := lt b a || ieeeEq a b

/-- IEEE `<=`. -/
def le (a b : DD) : Bool := lt a b || ieeeEq a b

end DD

/-- `ZADD_IN_*` input flags. -/
structure InFlags where
  incr : Bool := false
  nx : Bool := false
  xx : Bool := false
  gt : Bool := false
  lt : Bool := false
deriving DecidableEq, Repr

/-- `ZADD_OUT_*` output flags. -/
structure OutFlags where
  nop : Bool := false
  nan : Bool := false
  updated : Bool := false
  added : Bool := false
deriving DecidableEq, Repr

/-- Result of `Add`: the C++ `int` return (1 = ok, 0 = error) as `ok`, plus
`out_flags` and `*newscore` (written only on some paths). -/
structure AddResult where
  ok : Bool
  flags : OutFlags
  newscore : Option DD := none
deriving DecidableEq, Repr

/-- Skiplist + dict state of `SortedMap::RdImpl`: the observable content is
the skiplist bottom level, kept ascending by (score, member); the dict maps
each member to its node's score and is derived from the same list. -/
structure RdState where
  entries : List (String × DD)
deriving DecidableEq, Repr

/-- `zslInsert` walk: advance while the node key is strictly before the new
`(score, ele)` key (`x->score < score || (x->score == score &&
sdscmp(x->ele, ele) < 0)`), then link the new node there. -/
def zslInsertList (score : DD) (ele : String) : List (String × DD) → List (String × DD)
  | [] => [(ele, score)]
  | (m, s) :: rest =>
    if DD.lt s score || (DD.ieeeEq s score && decide (m < ele)) then
      (m, s) :: zslInsertList score ele rest
    else (ele, score) :: (m, s) :: rest

/-- `zslDelete`: unlink the node matching both score and member. -/
def zslDeleteList (score : DD) (ele : String) : List (String × DD) → List (String × DD)
  | [] => []
  | (m, s) :: rest =>
    if DD.ieeeEq s score && m == ele then rest
    else (m, s) :: zslDeleteList score ele rest

/-- `dictFind` on the member → score-pointer dict. -/
def rdLookup (st : RdState) (ele : String) : Option DD :=
  (st.entries.find? (fun e => e.1 == ele)).map (fun e => e.2)

/-- `SortedMap::RdImpl::Add` (sorted_map.cc:116-178). -/
def rdAdd (score : DD) (ele : String) (f : InFlags) (st : RdState) :
    AddResult × RdState :=
  match rdLookup st ele with
  | some curscore =>
    if f.nx then ({ ok := true, flags := { nop := true } }, st)
    else
      let score' := if f.incr then DD.add score curscore else score
      if f.incr && score'.isNan then
        ({ ok := false, flags := { nan := true } }, st)
      else if (f.lt && DD.ge score' curscore) || (f.gt && DD.le score' curscore) then
        ({ ok := true, flags := { nop := true } }, st)
      else if !(DD.ieeeEq score' curscore) then
        ({ ok := true, flags := { updated := true }, newscore := some score' },
          ⟨zslInsertList score' ele (zslDeleteList curscore ele st.entries)⟩)
      else
        ({ ok := true, flags := {}, newscore := some score' }, st)
  | none =>
    if !f.xx then
      ({ ok := true, flags := { added := true }, newscore := some score },
        ⟨zslInsertList score ele st.entries⟩)
    else
      ({ ok := true, flags := { nop := true } }, st)

/-- B+tree + score-map state of `SortedMap::DfImpl`: the observable content
is the tree's in-order key sequence, ascending by the untagged comparator
(score, then member bytes); `score_map` maps members to their ScoreSds
records and is derived from the same list. -/
structure DfState where
  entries : List (String × DD)
deriving DecidableEq, Repr

/-- `score_map->FindObj` followed by `GetObjScore`. -/
def dfLookup (st : DfState) (ele : String) : Option DD :=
  (st.entries.find? (fun e => e.1 == ele)).map (fun e => e.2)

/-- `SortedMap::DfImpl::Add` (sorted_map.cc:438-486).  Note GT/LT are not
handled by this implementation; a score update is tree-delete +
`SetObjScore` + tree-insert and always reports `UPDATED`. -/
def dfAdd (score : DD) (ele : String) (f : InFlags) (st : DfState) :
    AddResult × DfState :=
  match dfLookup st ele with
  | none =>
    if f.xx then ({ ok := true, flags := { nop := true } }, st)
    else
      ({ ok := true, flags := { added := true }, newscore := some score },
        ⟨zslInsertList score ele st.entries⟩)
  | some cur =>
    if f.nx then ({ ok := true, flags := { nop := true } }, st)
    else
      let score' := if f.incr then DD.add score cur else score
      if f.incr && score'.isNan then
        ({ ok := false, flags := { nan := true } }, st)
      else
        ({ ok := true, flags := { updated := true }, newscore := some score' },
          ⟨zslInsertList score' ele (zslDeleteList cur ele st.entries)⟩)

/-- C3: in both implementations, `Add` with `INCR` whose sum with the stored
score is NaN returns ok = 0 with only the `NAN` flag set and leaves the
sorted set completely unchanged. -/
theorem add_incr_nan_rejected (st : RdState) (stDf : DfState) (ele : String)
    (s d : DD) (f : InFlags) (hincr : f.incr = true) (hnx : f.nx = false)
    (hrd : rdLookup st ele = some s) (hdf : dfLookup stDf ele = some s)
    (hnan : (DD.add d s).isNan = true) :
    rdAdd d ele f st = ({ ok := false, flags := { nan := true } }, st) ∧
    dfAdd d ele f stDf = ({ ok := false, flags := { nan := true } }, stDf) := by
  constructor
  · unfold rdAdd
    rw [hrd]
    simp [hnx, hincr, hnan]
  · unfold dfAdd
    rw [hdf]
    simp [hnx, hincr, hnan]

/-- Witness for C3: member "a" stored with score +∞, INCR by −∞. -/
theorem add_incr_nan_rejected_witness :
    rdLookup ⟨[("a", DD.pinf)]⟩ "a" = some DD.pinf ∧
    (DD.add DD.ninf DD.pinf).isNan = true ∧
    rdAdd DD.ninf "a" { incr := true } ⟨[("a", DD.pinf)]⟩ =
      ({ ok := false, flags := { nan := true } }, ⟨[("a", DD.pinf)]⟩) ∧
    dfAdd DD.ninf "a" { incr := true } ⟨[("a", DD.pinf)]⟩ =
      ({ ok := false, flags := { nan := true } }, ⟨[("a", DD.pinf)]⟩) := by
  have h := add_incr_nan_rejected ⟨[("a", DD.pinf)]⟩ ⟨[("a", DD.pinf)]⟩ "a"
    DD.pinf DD.ninf { incr := true } rfl rfl (by decide) (by decide) (by decide)
  exact ⟨by decide, by decide, h.1, h.2⟩

/-! ## The tagged key comparator (`DfImpl::ScoreSdsPolicy::KeyCompareTo`,
sorted_map.cc:412-436) -/

/-- A ScoreSds pointer as seen by the comparator: the member bytes and the
8-byte score suffix of the record, plus the two tag bits carried in the
pointer's high bits (`kInfTag`, `kIgnoreDoubleTag`). -/
structure TaggedKey where
  member : String
  score : DD
  infTag : Bool
  ignoreTag : Bool

/-- Sign of `sdscmp` (memcmp-style lexicographic byte comparison, shorter
prefix first). -/
def strCmp : List Char → List Char → Int
  | [], [] => 0
  | [], _ :: _ => -1
  | _ :: _, [] => 1
  | x :: xs, y :: ys => if x < y then -1 else if y < x then 1 else strCmp xs ys

/-- `KeyCompareTo::operator()` (sorted_map.cc:412-436): compare scores unless
either key carries `IGNORE_SCORE_TAG`; then `INF_TAG` compares greater; then
member bytes lexicographically. -/
def keyCompareTo (a b : TaggedKey) : Int :=
  let tail : Int :=
    if a.infTag then 1
    else if b.infTag then -1
    else strCmp a.member.data b.member.data
  if !a.ignoreTag && !b.ignoreTag then
    if DD.lt a.score b.score then -1
    else if DD.lt b.score a.score then 1
    else tail
  else tail

theorem DD.lt_self_eq_false (a : DD) : DD.lt a a = false := by
  cases a <;> simp [DD.lt]

theorem DD.eq_of_not_lt_not_lt {a b : DD} (ha : a.isNan = false)
    (hb : b.isNan = false) (h1 : DD.lt a b = false) (h2 : DD.lt b a = false) :
    a = b := by
  cases a with
  | fin qa =>
    cases b with
    | fin qb =>
      simp only [DD.lt, decide_eq_false_iff_not] at h1 h2
      exact congrArg DD.fin (le_antisymm (not_lt.1 h2) (not_lt.1 h1))
    | pinf => simp [DD.lt] at h1
    | ninf => simp [DD.lt] at h2
    | nan => simp [DD.isNan] at hb
  | pinf =>
    cases b with
    | fin qb => simp [DD.lt] at h2
    | pinf => rfl
    | ninf => simp [DD.lt] at h2
    | nan => simp [DD.isNan] at hb
  | ninf =>
    cases b with
    | fin qb => simp [DD.lt] at h1
    | pinf => simp [DD.lt] at h1
    | ninf => rfl
    | nan => simp [DD.isNan] at hb
  | nan => simp [DD.isNan] at ha

theorem strCmp_eq_zero_iff : ∀ a b : List Char, strCmp a b = 0 ↔ a = b
  | [], [] => by simp [strCmp]
  | [], _ :: _ => by simp [strCmp]
  | _ :: _, [] => by simp [strCmp]
  | x :: xs, y :: ys => by
    simp only [strCmp]
    by_cases hxy : x < y
    · rw [if_pos hxy]
      constructor
      · intro h; exact absurd h (by decide)
      · intro h
        injection h with h1 _
        exact absurd (h1 ▸ hxy) (lt_irrefl _)
    · rw [if_neg hxy]
      by_cases hyx : y < x
      · rw [if_pos hyx]
        constructor
        · intro h; exact absurd h (by decide)
        · intro h
          injection h with h1 _
          exact absurd (h1 ▸ hyx) (lt_irrefl _)
      · rw [if_neg hyx]
        have hxyeq : x = y := le_antisymm (le_of_not_lt hyx) (le_of_not_lt hxy)
        rw [strCmp_eq_zero_iff xs ys]
        subst hxyeq
        constructor
        · intro h; rw [h]
        · intro h
          injection h

theorem strCmp_neg_iff : ∀ a b : List Char, strCmp a b = -1 ↔ List.Lex (· < ·) a b
  | [], [] => by
    simp only [strCmp]
    constructor
    · intro h; exact absurd h (by decide)
    · intro h; cases h
  | [], y :: ys => by
    simp only [strCmp]
    exact ⟨fun _ => List.Lex.nil, fun _ => by trivial⟩
  | x :: xs, [] => by
    simp only [strCmp]
    constructor
    · intro h; exact absurd h (by decide)
    · intro h; cases h
  | x :: xs, y :: ys => by
    simp only [strCmp]
    by_cases hxy : x < y
    · rw [if_pos hxy]
      exact ⟨fun _ => List.Lex.rel hxy, fun _ => by trivial⟩
    · rw [if_neg hxy]
      by_cases hyx : y < x
      · rw [if_pos hyx]
        constructor
        · intro h; exact absurd h (by decide)
        · intro h
          cases h with
          | cons h' => exact absurd hyx (lt_irrefl _)
          | rel h' => exact absurd h' hxy
      · rw [if_neg hyx]
        have hxyeq : x = y := le_antisymm (le_of_not_lt hyx) (le_of_not_lt hxy)
        subst hxyeq
        rw [strCmp_neg_iff xs ys]
        constructor
        · intro h; exact List.Lex.cons h
        · intro h
          cases h with
          | cons h' => exact h'
          | rel h' => exact absurd h' (lt_irrefl _)

theorem DD.lt_asymm_bool : ∀ {a b : DD}, DD.lt a b = true → DD.lt b a = false := by
  intro a b h
  cases a <;> cases b <;> simp [DD.lt] at h ⊢
  exact le_of_lt h

/-- When the score comparison is skipped or undecided, the comparator
returns its tag/member tail. -/
theorem keyCompareTo_tail (a b : TaggedKey)
    (h : a.ignoreTag = true ∨ b.ignoreTag = true ∨
      (DD.lt a.score b.score = false ∧ DD.lt b.score a.score = false)) :
    keyCompareTo a b =
      (if a.infTag then 1 else if b.infTag then -1
       else strCmp a.member.data b.member.data) := by
  unfold keyCompareTo
  rcases h with h | h | ⟨h1, h2⟩
  · simp [h]
  · simp [h]
  · by_cases hia : a.ignoreTag
    · simp [hia]
    · by_cases hib : b.ignoreTag
      · simp [hib]
      · simp [hia, hib, h1, h2]

theorem string_eq_iff_data (a b : String) : a = b ↔ a.data = b.data :=
  ⟨congrArg _, fun h => by
    cases a
    cases b
    exact congrArg String.mk (by simpa using h)⟩

/-- C6: the B+tree key comparator. (i) If neither key has the ignore-score
tag, scores decide first. (ii) If score comparison was skipped or did not
decide, a key carrying `INF_TAG` compares greater (`a` taking precedence),
otherwise member bytes compare lexicographically. (iii) Consequently
untagged keys with real (non-NaN) scores are totally ordered ascending by
(score, member-bytes-lex): the comparator returns 0 exactly on equal
(score, member) pairs and −1 exactly on lexicographically smaller ones. -/
theorem keyCompareTo_spec :
    (∀ a b : TaggedKey, a.ignoreTag = false → b.ignoreTag = false →
      (DD.lt a.score b.score = true → keyCompareTo a b = -1) ∧
      (DD.lt b.score a.score = true → keyCompareTo a b = 1)) ∧
    (∀ a b : TaggedKey,
      (a.ignoreTag = true ∨ b.ignoreTag = true ∨
        (DD.lt a.score b.score = false ∧ DD.lt b.score a.score = false)) →
      (a.infTag = true → keyCompareTo a b = 1) ∧
      (a.infTag = false → b.infTag = true → keyCompareTo a b = -1) ∧
      (a.infTag = false → b.infTag = false →
        keyCompareTo a b = strCmp a.member.data b.member.data)) ∧
    (∀ a b : TaggedKey, a.ignoreTag = false → b.ignoreTag = false →
      a.infTag = false → b.infTag = false →
      a.score.isNan = false → b.score.isNan = false →
      (keyCompareTo a b = 0 ↔ a.score = b.score ∧ a.member = b.member) ∧
      (keyCompareTo a b = -1 ↔
        (DD.lt a.score b.score = true ∨
          (a.score = b.score ∧ List.Lex (· < ·) a.member.data b.member.data)))) := by
  refine ⟨?_, ?_, ?_⟩
  · intro a b hia hib
    constructor
    · intro hlt
      unfold keyCompareTo
      simp [hia, hib, hlt]
    · intro hlt
      unfold keyCompareTo
      simp [hia, hib, DD.lt_asymm_bool hlt, hlt]
  · intro a b hskip
    rw [keyCompareTo_tail a b hskip]
    refine ⟨fun hinf => by simp [hinf], fun hninf hbinf => by simp [hninf, hbinf],
      fun hninf hbninf => by simp [hninf, hbninf]⟩
  · intro a b hia hib hifa hifb hna hnb
    rcases Bool.eq_false_or_eq_true (DD.lt a.score b.score) with hlt | hltf
    · -- a's score strictly smaller
      have hne : a.score ≠ b.score := fun h => by
        rw [h, DD.lt_self_eq_false] at hlt
        exact Bool.false_ne_true hlt
      have hcmp : keyCompareTo a b = -1 := by
        unfold keyCompareTo
        simp [hia, hib, hlt]
      rw [hcmp]
      constructor
      · constructor
        · intro h
          exact absurd h (by decide)
        · rintro ⟨h, _⟩
          exact absurd h hne
      · constructor
        · intro _
          exact Or.inl hlt
        · intro _
          rfl
    · rcases Bool.eq_false_or_eq_true (DD.lt b.score a.score) with hgt | hgtf
      · -- b's score strictly smaller
        have hne : a.score ≠ b.score := fun h => by
          rw [h, DD.lt_self_eq_false] at hgt
          exact Bool.false_ne_true hgt
        have hcmp : keyCompareTo a b = 1 := by
          unfold keyCompareTo
          simp [hia, hib, hltf, hgt]
        rw [hcmp]
        constructor
        · constructor
          · intro h
            exact absurd h (by decide)
          · rintro ⟨h, _⟩
            exact absurd h hne
        · constructor
          · intro h
            exact absurd h (by decide)
          · rintro (h | ⟨h, _⟩)
            · simp [hltf] at h
            · exact absurd h hne
      · -- scores tie: member bytes decide
        have heq : a.score = b.score := DD.eq_of_not_lt_not_lt hna hnb hltf hgtf
        have hcmp : keyCompareTo a b = strCmp a.member.data b.member.data := by
          rw [keyCompareTo_tail a b (Or.inr (Or.inr ⟨hltf, hgtf⟩)),
            if_neg (by simp [hifa]), if_neg (by simp [hifb])]
        rw [hcmp]
        constructor
        · rw [strCmp_eq_zero_iff]
          exact ⟨fun h => ⟨heq, (string_eq_iff_data _ _).2 h⟩,
            fun h => (string_eq_iff_data _ _).1 h.2⟩
        · rw [strCmp_neg_iff]
          constructor
          · intro h
            exact Or.inr ⟨heq, h⟩
          · rintro (h | ⟨_, h⟩)
            · simp [hltf] at h
            · exact h

/-- Witness for C6 at concrete keys. -/
theorem keyCompareTo_spec_witness :
    keyCompareTo ⟨"a", DD.fin 1, false, false⟩ ⟨"b", DD.fin 2, false, false⟩ = -1 := by
  have h := (keyCompareTo_spec.1 ⟨"a", DD.fin 1, false, false⟩
    ⟨"b", DD.fin 2, false, false⟩ rfl rfl).1
  exact h (by decide)

/-! ## B+tree variant stubs (sorted_map.cc:532-547, 569-582, 662-665) -/

/-- Result of an operation that can hit `LOG(FATAL)`: `LOG(FATAL)` aborts
the process, so the `fatal` alternative never yields a value. -/
inductive FatalOr (α : Type) where
  | fatal (msg : String)
  | ok (val : α)
deriving DecidableEq, Repr

/-- `zrangespec`: score range with exclusive-bound flags. -/
structure Zrangespec where
  min : DD
  max : DD
  minex : Bool
  maxex : Bool

/-- `zlexrangespec`: member range with exclusive-bound flags. -/
structure Zlexrangespec where
  lexmin : String
  lexmax : String
  minex : Bool
  maxex : Bool

abbrev ScoredArray := List (String × DD)

/-- `DfImpl::GetRange` (sorted_map.cc:532-536): `LOG(FATAL) << "TBD"`. -/
def dfGetRange (_ : DfState) (_ : Zrangespec) (_ _ : Nat) (_ : Bool) :
    FatalOr ScoredArray := .fatal "TBD"

/-- `DfImpl::GetLexRange` (sorted_map.cc:538-542): `LOG(FATAL) << "TBD"`. -/
def dfGetLexRange (_ : DfState) (_ : Zlexrangespec) (_ _ : Nat) (_ : Bool) :
    FatalOr ScoredArray := .fatal "TBD"

/-- `DfImpl::ToListPack` (sorted_map.cc:544-547): `LOG(FATAL) << "TBD"`. -/
def dfToListPack (_ : DfState) : FatalOr (List (String × DD)) := .fatal "TBD"

/-- `DfImpl::DeleteRangeByRank` (sorted_map.cc:569-572): `LOG(FATAL)`. -/
def dfDeleteRangeByRank (_ : DfState) (_ _ : Nat) : FatalOr Nat := .fatal "TBD"

/-- `DfImpl::DeleteRangeByScore` (sorted_map.cc:574-577): `LOG(FATAL)`. -/
def dfDeleteRangeByScore (_ : DfState) (_ : Zrangespec) : FatalOr Nat := .fatal "TBD"

/-- `DfImpl::DeleteRangeByLex` (sorted_map.cc:579-582): `LOG(FATAL)`. -/
def dfDeleteRangeByLex (_ : DfState) (_ : Zlexrangespec) : FatalOr Nat := .fatal "TBD"

/-- `DfImpl::LexCount` (sorted_map.cc:662-665): `LOG(FATAL)`. -/
def dfLexCount (_ : DfState) (_ : Zlexrangespec) : FatalOr Nat := .fatal "TBD"

/-- C7: every stubbed B+tree-variant operation fails loudly (`LOG(FATAL)`,
identifier "TBD") on every input; none ever returns a value as if the
operation had been performed. -/
theorem df_stubs_fail_loudly :
    (∀ st r o l rev, dfGetRange st r o l rev = .fatal "TBD") ∧
    (∀ st r o l rev, dfGetLexRange st r o l rev = .fatal "TBD") ∧
    (∀ st, dfToListPack st = .fatal "TBD") ∧
    (∀ st a b, dfDeleteRangeByRank st a b = .fatal "TBD") ∧
    (∀ st r, dfDeleteRangeByScore st r = .fatal "TBD") ∧
    (∀ st r, dfDeleteRangeByLex st r = .fatal "TBD") ∧
    (∀ st r, dfLexCount st r = .fatal "TBD") :=
  ⟨fun _ _ _ _ _ => rfl, fun _ _ _ _ _ => rfl, fun _ => rfl, fun _ _ _ => rfl,
    fun _ _ => rfl, fun _ _ => rfl, fun _ _ => rfl⟩

/-! ## Listpack round trip
(`RdImpl::ToListPack` sorted_map.cc:268-281, `SortedMap::FromListPack`
sorted_map.cc:709-738) -/

/-- Strict (score, member) order of skiplist nodes / tree keys. -/
def entryLt (x y : String × DD) : Prop :=
  DD.lt x.2 y.2 = true ∨ (x.2 = y.2 ∧ x.1 < y.1)

instance : DecidableRel entryLt := by
  unfold entryLt; infer_instance

/-- Valid sorted-set content: node list strictly ascending by (score,
member) — members are in particular unique — and no stored score is NaN. -/
def RdState.Valid (st : RdState) : Prop :=
  st.entries.Pairwise entryLt ∧ ∀ e ∈ st.entries, e.2.isNan = false

/-- `RdImpl::ToListPack` (sorted_map.cc:268-281): walk the skiplist bottom
level ascending, appending each (member, score) via `zzlInsertAt`.  The
external listpack encoding (`redis/listpack.c`) and the
`d2string`/`zzlGetScore` score rendering (`redis/util.c`) are outside the
supplied sources and round-trip members and scores exactly; a listpack is
therefore modelled by the pair sequence it encodes. -/
def rdToListPack (st : RdState) : List (String × DD) := st.entries

/-- `SortedMap::RdImpl::Insert` (sorted_map.cc:110-114): unconditional
`zslInsert` + `dictAdd`. -/
def rdInsert (score : DD) (ele : String) (st : RdState) : RdState :=
  ⟨zslInsertList score ele st.entries⟩

/-- `SortedMap::FromListPack` (sorted_map.cc:709-738): rebuild a sorted map
by `Insert`ing every (member, score) pair in stream order (skiplist variant,
i.e. `use_zset_tree` = false, the flag's default). -/
def fromListPack (lp : List (String × DD)) : RdState :=
  lp.foldl (fun st p => rdInsert p.2 p.1 st) ⟨[]⟩

theorem DD.ieeeEq_self {s : DD} (h : s.isNan = false) : DD.ieeeEq s s = true := by
  cases s <;> simp_all [DD.ieeeEq, DD.isNan]

/-- Inserting a key strictly greater than every present entry appends it. -/
theorem zslInsertList_append (score : DD) (ele : String) :
    ∀ (l : List (String × DD)), (∀ e ∈ l, entryLt e (ele, score)) →
      (∀ e ∈ l, e.2.isNan = false) →
      zslInsertList score ele l = l ++ [(ele, score)]
  | [], _, _ => rfl
  | (m, s) :: rest, hgt, hnn => by
    have hms : entryLt (m, s) (ele, score) := hgt _ (List.mem_cons_self _ _)
    have hcond : (DD.lt s score || (DD.ieeeEq s score && decide (m < ele))) = true := by
      rcases hms with h | ⟨h, h'⟩
      · simp [h]
      · have hs : s.isNan = false := hnn _ (List.mem_cons_self _ _)
        simp only at h
        rw [h] at hs ⊢
        simp [DD.ieeeEq_self hs, h']
    simp only [zslInsertList, hcond, if_true]
    rw [zslInsertList_append score ele rest
      (fun e he => hgt e (List.mem_cons_of_mem _ he))
      (fun e he => hnn e (List.mem_cons_of_mem _ he))]
    rfl

/-- C5 (skiplist variant): `ToListPack` emits all elements in ascending
skiplist order, and `FromListPack ∘ ToListPack` rebuilds a state equal to
the original as a pair sequence, in the same ascending iteration order. -/
theorem fromListPack_toListPack_id (st : RdState) (hv : st.Valid) :
    fromListPack (rdToListPack st) = st ∧ (rdToListPack st).Pairwise entryLt := by
  refine ⟨?_, hv.1⟩
  obtain ⟨hsorted, hnn⟩ := hv
  obtain ⟨entries⟩ := st
  simp only [rdToListPack, fromListPack] at *
  suffices h : ∀ (l : List (String × DD)), l.Pairwise entryLt →
      (∀ e ∈ l, e.2.isNan = false) →
      l.foldl (fun st p => rdInsert p.2 p.1 st) ⟨[]⟩ = ⟨l⟩ by
    exact h entries hsorted hnn
  intro l
  induction l using List.reverseRecOn with
  | nil => intro _ _; rfl
  | append_singleton l e ih =>
    intro hp hnn'
    have hpl : l.Pairwise entryLt :=
      List.Pairwise.sublist (List.sublist_append_left _ _) hp
    have hgt : ∀ x ∈ l, entryLt x e := by
      intro x hx
      have := (List.pairwise_append.1 hp).2.2
      exact this x hx e (List.mem_singleton.2 rfl)
    rw [List.foldl_append, ih hpl
      (fun x hx => hnn' x (List.mem_append_left _ hx))]
    simp only [List.foldl_cons, List.foldl_nil, rdInsert]
    rw [zslInsertList_append e.2 e.1 l hgt
      (fun x hx => hnn' x (List.mem_append_left _ hx))]

/-- Witness for C5 at a concrete two-element sorted set. -/
theorem fromListPack_toListPack_id_witness :
    RdState.Valid ⟨[("a", DD.fin 1), ("b", DD.fin 2)]⟩ ∧
    fromListPack (rdToListPack ⟨[("a", DD.fin 1), ("b", DD.fin 2)]⟩) =
      ⟨[("a", DD.fin 1), ("b", DD.fin 2)]⟩ :=
  ⟨by constructor <;> decide,
    (fromListPack_toListPack_id ⟨[("a", DD.fin 1), ("b", DD.fin 2)]⟩
      ⟨by decide, by decide⟩).1⟩

/-! ## `FT.SEARCH` KNN reply (`ReplyKnn`, search_family.cc:174-196) -/

/-- A serialized doc inside a shard's `SearchResult`: only the key and the
`knn_distance` field matter for reply ordering. -/
structure SDoc where
  key : String
  knn_distance : Rat
deriving DecidableEq, Repr

/-- `LIMIT offset total` parameters (default `LIMIT 0 10`). -/
structure SearchParamsM where
  limit_offset : Nat
  limit_total : Nat
deriving DecidableEq, Repr

/-- The `partial_sort` comparator `l->knn_distance < r->knn_distance`, as a
non-strict total relation for sorting. -/
def docLe (a b : SDoc) : Prop := a.knn_distance ≤ b.knn_distance

instance : DecidableRel docLe := by
  unfold docLe; infer_instance

instance : IsTotal SDoc docLe where
  total a b := le_total a.knn_distance b.knn_distance

instance : IsTrans SDoc docLe where
  trans _ _ _ hab hbc := le_trans hab hbc

/-- `std::partial_sort(first, middle, last)`: its precondition is
`middle ∈ [first, last]`, so it is defined only when `m ≤ l.length`; `none`
models the out-of-range middle iterator (undefined behavior).  When defined,
the first `m` positions hold the `m` smallest elements in ascending order —
the only part the reply reads — modelled by a full sort. -/
def partialSortByDist (m : Nat) (l : List SDoc) : Option (List SDoc) :=
  if m ≤ l.length then some (l.insertionSort docLe) else none

/-- `ReplyKnn` (search_family.cc:174-196): flatten all shards' docs,
`partial_sort` the first `min(limit_offset + limit_total, knn_limit)` by
ascending `knn_distance` — the middle iterator
`docs.begin() + min(params.limit_offset + params.limit_total, knn_limit)`
is *not* clamped to `docs.size()` — then `resize` to `min(size, knn_limit)`
candidates and reply
`(candidate count, docs[limit_offset .. limit_offset + response_count))`. -/
def replyKnn (knn_limit : Nat) (p : SearchParamsM) (results : List (List SDoc)) :
    Option (Nat × List SDoc) :=
  let docs := results.flatten
  match partialSortByDist (min (p.limit_offset + p.limit_total) knn_limit) docs with
  | none => none
  | some sorted =>
    let docs2 := sorted.take (min sorted.length knn_limit)
    let rc := min (docs2.length - min docs2.length p.limit_offset) p.limit_total
    some (docs2.length, (docs2.drop p.limit_offset).take rc)

end Dfly
